import Mathlib

/-!
Verification of the ebook_finder catalog engine: a shallow embedding of
`ebook_search.py`, `kindle_email.py` and the persistence and scanning
logic, with theorems settling the frozen claims about the spec.

Paths are modelled at the character-list level, mirroring CPython's
`posixpath` functions (`normpath`, `join`, `abspath`, `dirname`,
`basename`, `splitext`) on POSIX separators.  Machine floats are
idealized as rationals (exact arithmetic); `round` is banker's rounding
on rationals.
-/

/-- Lowercasing of a character list, modelling Python `str.lower()`
(ASCII-faithful). -/
def lowerL (l : List Char) : List Char := l.map Char.toLower

/-- Word splitting, modelling Python `str.split()` with no argument:
split on runs of whitespace, dropping empty pieces. -/
def wordsCore : List Char → List Char → List (List Char)
  | [], cur => if cur = [] then [] else [cur.reverse]
  | c :: cs, cur =>
    if c.isWhitespace then
      (if cur = [] then wordsCore cs [] else cur.reverse :: wordsCore cs [])
    else wordsCore cs (c :: cur)

def pyWords (l : List Char) : List (List Char) := wordsCore l []

/-- Python `str.strip()` with no argument. -/
def pyStrip (l : List Char) : List Char :=
  ((l.dropWhile Char.isWhitespace).reverse.dropWhile Char.isWhitespace).reverse

/-- Substring containment, modelling the Python `in` operator on strings. -/
def isSubstr (needle hay : List Char) : Bool :=
  hay.tails.any (fun t => needle.isPrefixOf t)

/-- Python `str.split(sep)` for a single-character separator: keeps
empty pieces, `"" ↦ [""]`. -/
def splitSlash : List Char → List (List Char)
  | [] => [[]]
  | c :: cs =>
    let r := splitSlash cs
    if c = '/' then [] :: r
    else (c :: r.headD []) :: r.tail

/-- `sep.join(pieces)` for a single-character separator. -/
def joinSep (sep : Char) : List (List Char) → List Char
  | [] => []
  | [x] => x
  | x :: xs => x ++ sep :: joinSep sep xs

/-- The `initial_slashes` computation of `posixpath.normpath`: 1 for a
leading slash, 2 for exactly two leading slashes (POSIX special case),
1 again for three or more. -/
def initSlashCount (p : List Char) : Nat :=
  if p.head? = some '/' then
    if (p.drop 1).head? = some '/' ∧ (p.drop 2).head? ≠ some '/' then 2 else 1
  else 0

/-- One step of the component-processing loop of `posixpath.normpath`:
drop empty and `.` components, resolve `..` against the accumulator. -/
def normStep (init : Bool) (acc : List (List Char)) (comp : List Char) : List (List Char) :=
  if comp = [] ∨ comp = ['.'] then acc
  else if comp ≠ ['.', '.'] ∨ (init = false ∧ acc = []) ∨ acc.getLast? = some ['.', '.'] then
    acc ++ [comp]
  else acc.dropLast

/-- The processed components of `posixpath.normpath`. -/
def normComps (p : List Char) : List (List Char) :=
  (splitSlash p).foldl (normStep (0 < initSlashCount p)) []

/-- `posixpath.normpath`. -/
def normpathL (p : List Char) : List Char :=
  if p = [] then ['.']
  else if List.replicate (initSlashCount p) '/' ++ joinSep '/' (normComps p) = [] then ['.']
  else List.replicate (initSlashCount p) '/' ++ joinSep '/' (normComps p)

/-- `posixpath.join(a, b)` for two components. -/
def joinPathL (a b : List Char) : List Char :=
  if b.head? = some '/' then b
  else if a = [] ∨ a.getLast? = some '/' then a ++ b
  else a ++ '/' :: b

/-- `posixpath.abspath` relative to a current working directory `cwd`:
join when relative, then normalize. -/
def abspathL (cwd p : List Char) : List Char :=
  if p.head? = some '/' then normpathL p else normpathL (joinPathL cwd p)

/-- The canonicalization `os.path.normpath(os.path.abspath(path))` used
as the deduplication key in `ebook_search.py` (`abspath` already ends in
a `normpath`, the outer one is applied on top, faithfully). -/
def canonL (cwd p : List Char) : List Char := normpathL (abspathL cwd p)

def canonS (cwd p : String) : String := ⟨canonL cwd.data p.data⟩

/-- `posixpath.basename`: the part after the last slash. -/
def basenameL (p : List Char) : List Char := (p.reverse.takeWhile (· ≠ '/')).reverse

def basenameS (p : String) : String := ⟨basenameL p.data⟩

/-- `posixpath.dirname`: everything up to the last slash, with trailing
slashes stripped unless the head is all slashes. -/
def dirnameL (p : List Char) : List Char :=
  let head := p.take (p.length - (p.reverse.takeWhile (· ≠ '/')).length)
  if head ≠ [] ∧ head.any (· ≠ '/') then (head.reverse.dropWhile (· = '/')).reverse
  else head

def dirnameS (p : String) : String := ⟨dirnameL p.data⟩

/-- Index of the last occurrence of `c`, modelling `str.rfind` (as an
`Option` instead of `-1`). -/
def lastIdxOf (c : Char) (l : List Char) : Option Nat :=
  match l.reverse.findIdx? (· = c) with
  | none => none
  | some j => some (l.length - 1 - j)

/-- The root part of `os.path.splitext(p)`: cut at the last dot after
the last slash, unless everything between them is dots (leading-dot
files keep their name). -/
def splitextRoot (p : List Char) : List Char :=
  let fIdx := match lastIdxOf '/' p with
    | none => 0
    | some s => s + 1
  match lastIdxOf '.' p with
  | none => p
  | some di =>
    if fIdx ≤ di then
      if ((p.drop fIdx).take (di - fIdx)).any (· ≠ '.') then p.take di else p
    else p

/-- `pathlib.PurePath.suffix`: the final extension of the last
component (trailing separators stripped), empty for dot-files and
trailing-dot names. -/
def pathSuffix (p : String) : String :=
  let core := (p.data.reverse.dropWhile (· = '/')).reverse
  let name := basenameL core
  match lastIdxOf '.' name with
  | none => ""
  | some i => if 0 < i ∧ i + 1 < name.length then ⟨name.drop i⟩ else ""

/-- Banker's rounding of a rational to an integer, the idealized
real-valued semantics of Python `round(x)`. -/
def roundHalfEven (x : ℚ) : ℤ :=
  let n := ⌊x⌋
  let frac := x - n
  if frac < 1/2 then n
  else if 1/2 < frac then n + 1
  else if n % 2 = 0 then n else n + 1

/-- Python `round(x, d)` on rationals. -/
def pyRound (d : ℕ) (x : ℚ) : ℚ := (roundHalfEven (x * 10 ^ d) : ℚ) / 10 ^ d

/-- A catalog record as built by `find_ebook_files`. -/
structure Book where
  filename : String
  full_path : String
  directory : String
  extension : String
  size_mb : ℚ
deriving DecidableEq

/-- The supported-format list of `EbookSearcher.__init__`. -/
def supported_formats : List String :=
  [".pdf", ".epub", ".mobi", ".azw", ".azw3", ".djvu", ".fb2"]

/-- A filesystem snapshot: for each root directory the file paths its
recursive glob enumerates, and each file's size in bytes. -/
structure FS where
  files : String → List String
  size : String → ℚ

/-- Processing of one globbed file path in `find_ebook_files`: skip if
its canonical path was seen, otherwise record it (the glob pattern
`*{ext}` keeps exactly the paths ending in the lowercase extension;
the state is the seen-set paired with the accumulated records). -/
def mkBook (fs : FS) (cwd ext fp : String) : Book :=
  { filename := basenameS fp
  , full_path := canonS cwd fp
  , directory := dirnameS (canonS cwd fp)
  , extension := ext
  , size_mb := pyRound 2 (fs.size fp / (1024 * 1024)) }

def scan_step (fs : FS) (cwd : String) (ext : String)
    (st : List String × List Book) (fp : String) : List String × List Book :=
  if canonS cwd fp ∈ st.1 then st
  else (canonS cwd fp :: st.1, st.2 ++ [mkBook fs cwd ext fp])

/-- `EbookSearcher.find_ebook_files`: for each directory and each
supported extension, glob (modelled as an ends-with filter over the
snapshot, matching POSIX glob's case-sensitive `*{ext}` pattern) and
accumulate unseen files. -/
def find_ebook_files (fs : FS) (cwd : String) (dirs : List String) : List Book :=
  (dirs.foldl (fun st d =>
      supported_formats.foldl (fun st ext =>
          ((fs.files d).filter (fun f => ext.data.isSuffixOf f.data)).foldl (scan_step fs cwd ext) st)
        st)
    ([], [])).2

/-- The record update performed on every kept book by
`_deduplicate_books`: store the normalized path and its parent. -/
def updateBook (cwd : String) (b : Book) : Book :=
  let np := canonS cwd b.full_path
  { b with full_path := np, directory := dirnameS np }

/-- The loop of `_deduplicate_books` with its seen-set made explicit. -/
def dedupBooksAux (cwd : String) (seen : List String) : List Book → List Book
  | [] => []
  | b :: bs =>
    let np := canonS cwd b.full_path
    if np ∈ seen then dedupBooksAux cwd seen bs
    else updateBook cwd b :: dedupBooksAux cwd (np :: seen) bs

/-- `EbookSearcher._deduplicate_books`. -/
def deduplicate_books (cwd : String) (books : List Book) : List Book :=
  dedupBooksAux cwd [] books

/-- The combined searchable text of `search_books`: lowercased filename
without extension, a space, and the lowercased dot-stripped extension. -/
def searchableTextOf (b : Book) : List Char :=
  lowerL (splitextRoot b.filename.data) ++ ' ' :: (lowerL b.extension.data).filter (· ≠ '.')

/-- `query.lower().split()`. -/
def queryTermsOf (q : String) : List (List Char) := pyWords (lowerL q.data)

/-- How many query terms occur as substrings of the searchable text. -/
def matchedTermCount (q : String) (b : Book) : Nat :=
  ((queryTermsOf q).filter (fun t => isSubstr t (searchableTextOf b))).length

/-- How many query terms start some whitespace-delimited word of the
searchable text (the +5 bonus loop). -/
def wordStartCount (q : String) (b : Book) : Nat :=
  ((queryTermsOf q).filter
    (fun t => (pyWords (searchableTextOf b)).any (fun w => t.isPrefixOf w))).length

/-- The per-record score of `search_books`: 100 on full-phrase
containment, else truncated percentage of matched terms (`int(... * 90)`
idealized over exact arithmetic is floor division) plus 5 per
word-start term, capped at 100; 0 when no term matches. -/
def score_book (q : String) (b : Book) : Nat :=
  if isSubstr (lowerL q.data) (searchableTextOf b) then 100
  else if 0 < matchedTermCount q b then
    min 100 (matchedTermCount q b * 90 / (queryTermsOf q).length + 5 * wordStartCount q b)
  else 0

/-- Stable descending insertion by score: the function computed by
Python's stable `results.sort(key=lambda x: x[1], reverse=True)`. -/
def insertDesc (x : Book × Nat) : List (Book × Nat) → List (Book × Nat)
  | [] => [x]
  | y :: ys => if y.2 < x.2 then x :: y :: ys else y :: insertDesc x ys

def sortByScoreDesc (l : List (Book × Nat)) : List (Book × Nat) :=
  l.foldr insertDesc []

/-- `EbookSearcher.search_books` (the fast keyword strategy in src/). -/
def search_books (q : String) (books : List Book) : List (Book × Nat) :=
  if pyStrip q.data = [] then books.map (fun b => (b, 100))
  else
    sortByScoreDesc
      (books.filterMap (fun b =>
        if 0 < score_book q b then some (b, score_book q b) else none))

/-- The fast-mode score exactly as the claim words it: base score is
*rounded* (`round(100 × matched/total × 0.9)`), plus 5 per word-start
term, capped at 100.  Differs from the code, which truncates. -/
def specFastScore (q : String) (b : Book) : ℤ :=
  min 100 (roundHalfEven ((100 * matchedTermCount q b : ℚ) / (queryTermsOf q).length * (9/10))
           + 5 * wordStartCount q b)

/-- The statistics dictionary of `_calculate_stats` (nonempty case). -/
structure Stats where
  total_books : Nat
  total_size_mb : ℚ
  total_size_gb : ℚ
  file_types : List (String × Nat)
  unique_directories : Nat
  largest_book : Book
  average_size_mb : ℚ
deriving DecidableEq

/-- `sum(book.get("size_mb", 0) for book in books)`. -/
def totalSizeMb (books : List Book) : ℚ :=
  books.foldl (fun s b => s + b.size_mb) 0

/-- One step of the extension-count dictionary (`extensions[ext] += 1`,
insertion-ordered). -/
def bumpExt (m : List (String × Nat)) (e : String) : List (String × Nat) :=
  if m.any (fun p => p.1 = e) then
    m.map (fun p => if p.1 = e then (p.1, p.2 + 1) else p)
  else m ++ [(e, 1)]

def file_types_of (books : List Book) : List (String × Nat) :=
  books.foldl (fun m b =>
    let e : String := ⟨lowerL b.extension.data⟩
    if e ≠ "" then bumpExt m e else m) []

/-- `len(directories)` for the set of nonempty directories. -/
def unique_dirs (books : List Book) : Nat :=
  ((books.filterMap (fun b => if b.directory ≠ "" then some b.directory else none)).dedup).length

/-- Python `max(books, key=size)`: first maximal element. -/
def maxBySize : Book → List Book → Book
  | cur, [] => cur
  | cur, b :: bs => maxBySize (if cur.size_mb < b.size_mb then b else cur) bs

/-- `EbookSearcher._calculate_stats`; `none` models the empty dict
returned for an empty book list, so the divisions by `len(books)` are
guarded and only ever evaluated with a positive denominator. -/
def calculate_stats : List Book → Option Stats
  | [] => none
  | b :: bs =>
    let books := b :: bs
    let total := totalSizeMb books
    some { total_books := books.length
         , total_size_mb := pyRound 1 total
         , total_size_gb := pyRound 2 (total / 1024)
         , file_types := file_types_of books
         , unique_directories := unique_dirs books
         , largest_book := maxBySize b bs
         , average_size_mb := pyRound 2 (total / books.length) }

/-- The persisted catalog's metadata (`refresh_date` and
`build_time_seconds` carry no verified content and are omitted). -/
structure CatalogMeta where
  last_refresh : ℚ
  total_books : Nat
  search_directories : List String
deriving DecidableEq

/-- The catalog structure; `books := none` models a persisted dict
missing the `books` key. -/
structure Catalog where
  metadata : CatalogMeta
  books : Option (List Book)
  stats : Option Stats
deriving DecidableEq

/-- `EbookSearcher.deduplicate_catalog` on a loaded catalog value: with
no `books` key the catalog is returned unchanged, otherwise books are
deduplicated and `total_books` and `stats` recomputed (the save step
does not alter the returned value). -/
def deduplicate_catalog (cwd : String) (cat : Catalog) : Catalog :=
  match cat.books with
  | none => cat
  | some books =>
    let db := deduplicate_books cwd books
    { cat with
        books := some db
      , metadata := { cat.metadata with total_books := db.length }
      , stats := calculate_stats db }

def catalog_max_age_days : ℚ := 7

def daily_refresh_hour : Nat := 3

/-- `EbookSearcher._should_refresh_catalog`.  `read = none` models a
missing catalog file or any read/parse failure (the `except` branch);
`read = some t` models a successfully parsed `last_refresh` of `t`
epoch seconds (0 when the key is absent).  `now` is the current epoch
time and `nowHour` the current local hour. -/
def should_refresh_catalog (read : Option ℚ) (now : ℚ) (nowHour : Nat) : Bool :=
  match read with
  | none => true
  | some last =>
    if catalog_max_age_days * 86400 < now - last then true
    else if nowHour = daily_refresh_hour ∧ 23 * 3600 < now - last then true
    else false

/-- The staleness condition exactly as the claim words it (note the
`≤`: "at least 23 hours have elapsed"). -/
def specStaleClaim (read : Option ℚ) (now : ℚ) (nowHour : Nat) : Prop :=
  read = none
  ∨ catalog_max_age_days * 86400 < now - (read.getD 0)
  ∨ (nowHour = daily_refresh_hour ∧ 23 * 3600 ≤ now - (read.getD 0))

instance (r : Option ℚ) (now : ℚ) (h : Nat) : Decidable (specStaleClaim r now h) := by
  unfold specStaleClaim; infer_instance

/-- Outcome of the `open(file, 'w'); json.dump(...)` attempt in
`build_catalog` / `deduplicate_catalog`: the open may fail (file
untouched), or the write may fail after `k` characters (the open has
already truncated the file, so only a prefix of the new serialization
remains), or everything succeeds. -/
inductive WriteOutcome where
  | success
  | openFail
  | writeFail (written : Nat)
deriving DecidableEq

/-- Content of the catalog file after the persistence attempt. -/
def persistedContent (old new : String) : WriteOutcome → String
  | .success => new
  | .openFail => old
  | .writeFail k => ⟨new.data.take k⟩

/-- `EbookSearcher.build_catalog` on its rebuild path (the not-forced,
not-stale early return hands back `load_catalog()` instead and writes
nothing): scan, deduplicate, assemble metadata and stats, then attempt
to persist through `enc` (the JSON serializer, an external
collaborator); an `OSError` is caught and only warned about. -/
def build_catalog (fs : FS) (cwd : String) (dirs : List String) (now : ℚ)
    (enc : Catalog → String) (oldFile : String) (o : WriteOutcome) : Catalog × String :=
  let allBooks := deduplicate_books cwd (find_ebook_files fs cwd dirs)
  let cat : Catalog :=
    { metadata := { last_refresh := now, total_books := allBooks.length
                  , search_directories := dirs }
    , books := some allBooks
    , stats := calculate_stats allBooks }
  (cat, persistedContent oldFile (enc cat) o)

/-- `email_config.supported_formats` from `conf.py`. -/
def kindle_supported_formats : List String :=
  [".pdf", ".mobi", ".epub", ".azw", ".azw3", ".txt", ".doc", ".docx"]

/-- What validation sees of one file at one instant. -/
structure FileStat where
  present : Bool
  size_mb : ℚ
deriving DecidableEq

/-- `KindleEmailSender.validate_file_for_kindle` (validity flag):
file exists, lowercased suffix in the supported set, size within the
configured maximum. -/
def validate_file_for_kindle (fs : String → FileStat) (maxMb : ℚ) (path : String) : Bool :=
  if (fs path).present = false then false
  else if ¬ (⟨lowerL (pathSuffix path).data⟩ : String) ∈ kindle_supported_formats then false
  else if maxMb < (fs path).size_mb then false
  else true

/-- Observable outcome of `send_book_to_kindle`. -/
structure SendResult where
  success : Bool
  conversion_performed : Bool
  sent_file : Option String
deriving DecidableEq

/-- `KindleEmailSender.send_book_to_kindle`: validate, require a
credential, fall back to the original file unless the converter
succeeded with an output path, re-validate the file actually sent
(against the possibly-changed filesystem `fs2`), then hand to the
transport (`transportOk = false` models an SMTP exception, caught and
reported as failure). -/
def send_book_to_kindle (fs1 fs2 : String → FileStat) (maxMb : ℚ) (hasPassword : Bool)
    (convSuccess : Bool) (convPath : Option String) (transportOk : Bool)
    (path : String) : SendResult :=
  if validate_file_for_kindle fs1 maxMb path = false then
    { success := false, conversion_performed := false, sent_file := none }
  else if hasPassword = false then
    { success := false, conversion_performed := false, sent_file := none }
  else
    let performed := convSuccess && convPath.isSome
    let fileToSend := if performed then convPath.getD path else path
    if validate_file_for_kindle fs2 maxMb fileToSend = false then
      { success := false, conversion_performed := performed, sent_file := none }
    else
      { success := transportOk, conversion_performed := performed, sent_file := some fileToSend }

/-- Lexicographic order on character lists (Python string `<=`). -/
def lexLe : List Char → List Char → Bool
  | [], _ => true
  | _ :: _, [] => false
  | a :: as, b :: bs => if a < b then true else if b < a then false else lexLe as bs

/-- Stable insertion for `sorted()` over tokens. -/
def insertLex (x : List Char) : List (List Char) → List (List Char)
  | [] => [x]
  | y :: ys => if lexLe x y then x :: y :: ys else y :: insertLex x ys

def sortTokens (ts : List (List Char)) : List (List Char) := ts.foldr insertLex []

/-- One row of the longest-common-subsequence table: `bj :: bs` walks
the second word, the previous row is consumed in lockstep, `cj` is the
entry just computed to the left. -/
def lcsRowGo (c : Char) : List Char → List Nat → Nat → List Nat
  | [], _, _ => []
  | bj :: bs, pj :: pj1 :: ps, cj =>
    let nj1 := if c = bj then pj + 1 else max cj pj1
    nj1 :: lcsRowGo c bs (pj1 :: ps) nj1
  | _ :: _, _, _ => []

def lcsRow (c : Char) (b : List Char) (prev : List Nat) : List Nat :=
  0 :: lcsRowGo c b prev 0

/-- Length of the longest common subsequence, by row dynamic
programming. -/
def lcsLen (a b : List Char) : Nat :=
  ((a.foldl (fun row c => lcsRow c b row) (List.replicate (b.length + 1) 0)).getLast?).getD 0

/-- Modelled from the spec: the indel similarity 0-100 underlying the
fuzzy scores of §4.4 (the fuzzy strategy is absent from src/; app.py
calls a three-argument `search_books` the src version does not have).
`200·lcs/(|a|+|b|)`, 100 for two empty strings. -/
def indelSim (a b : List Char) : Nat :=
  if a = [] ∧ b = [] then 100 else 200 * lcsLen a b / (a.length + b.length)

/-- Modelled from the spec: "(b) a partial-ratio fuzzy similarity score
0-100" of §4.4 — the best-aligned-window similarity, which is maximal
(100) exactly when the query occurs verbatim as a substring, and
otherwise bounded by the whole-string indel similarity. -/
def containSim (q t : List Char) : Nat :=
  if isSubstr q t then 100 else indelSim q t

/-- Modelled from the spec: "(c) a token-order-insensitive similarity
score 0-100" of §4.4 — indel similarity after sorting the
whitespace-delimited tokens of both sides. -/
def tokenSortSim (q t : List Char) : Nat :=
  indelSim (joinSep ' ' (sortTokens (pyWords q))) (joinSep ' ' (sortTokens (pyWords t)))

/-- Modelled from the spec: the fuzzy-mode record score of §4.4 — max of
(b) and (c), boosted by +20 capped at 100 when the lowercased query is
contained in the lowercased filename without extension. -/
def fuzzy_score (q : String) (b : Book) : Nat :=
  let ql := lowerL q.data
  let t := lowerL (splitextRoot b.filename.data)
  let base := max (containSim ql t) (tokenSortSim ql t)
  if isSubstr ql t then min 100 (base + 20) else base

/-- Modelled from the spec: fuzzy-mode `search_books` of §4.4 (the
default strategy): empty query short-circuits to all records at 100,
otherwise keep records whose score meets the caller-supplied threshold,
sorted by score descending (stable). -/
def fuzzy_search_books (q : String) (books : List Book) (threshold : Nat) :
    List (Book × Nat) :=
  if pyStrip q.data = [] then books.map (fun b => (b, 100))
  else
    sortByScoreDesc
      (books.filterMap (fun b =>
        if threshold ≤ fuzzy_score q b then some (b, fuzzy_score q b) else none))

/-- An apostrophe, kept out of string literals. -/
def apos : Char := Char.ofNat 39

/-- The filename `"Harry Potter and the Sorcerer's Stone.epub"`. -/
def hpFilename : String :=
  "Harry Potter and the Sorcerer" ++ apos.toString ++ "s Stone.epub"

def hpBook : Book :=
  { filename := hpFilename
  , full_path := "/books/" ++ hpFilename
  , directory := "/books"
  , extension := ".epub"
  , size_mb := 2 }

def potterBook : Book :=
  { filename := "potter.pdf"
  , full_path := "/books/potter.pdf"
  , directory := "/books"
  , extension := ".pdf"
  , size_mb := 1 }

/-- A normalized path component: nonempty, not `.` or `..`, slash-free. -/
def cleanComp (c : List Char) : Prop :=
  c ≠ [] ∧ c ≠ ['.'] ∧ c ≠ ['.', '.'] ∧ '/' ∉ c

/-- The loop invariant of `find_ebook_files`: recorded canonical paths
are distinct, every record's directory is the parent of its path, and
the seen-set holds exactly the recorded paths. -/
def ScanInv (st : List String × List Book) : Prop :=
  (st.2.map Book.full_path).Nodup
  ∧ (∀ b ∈ st.2, b.directory = dirnameS b.full_path)
  ∧ (∀ p, p ∈ st.1 ↔ p ∈ st.2.map Book.full_path)

/-- An empty filesystem snapshot. -/
def fsEmpty : FS := { files := fun _ => [], size := fun _ => 0 }

/-- A snapshot holding one file with an uppercase extension. -/
def fsPDF : FS :=
  { files := fun d => if d = "/b" then ["/b/Book.PDF"] else [], size := fun _ => 1048576 }

/-- A snapshot holding one ordinary pdf file. -/
def fsOk : FS :=
  { files := fun d => if d = "/b" then ["/b/x.pdf"] else [], size := fun _ => 1048576 }

/-- A filesystem view where every path is a present 1 MB file. -/
def fsGood : String → FileStat := fun _ => { present := true, size_mb := 1 }

/-- A second record whose path spells differently but canonicalizes to
`potterBook`'s path. -/
def sampleDupBook : Book := { potterBook with full_path := "/books//potter.pdf" }

def sampleBooks : List Book := [potterBook, sampleDupBook]

def sampleCat : Catalog :=
  { metadata := { last_refresh := 0, total_books := 2, search_directories := [] }
  , books := some sampleBooks
  , stats := none }

theorem normpathL_example : normpathL "/a//b/../c/./d".data = "/a/c/d".data := by decide

theorem dirnameL_examples :
    dirnameL "/a/b".data = "/a".data ∧ dirnameL "/".data = "/".data
    ∧ dirnameL "abc".data = [] := by decide

theorem splitextRoot_examples :
    splitextRoot "Harry Potter.epub".data = "Harry Potter".data
    ∧ splitextRoot ".bashrc".data = ".bashrc".data
    ∧ splitextRoot "a.tar.gz".data = "a.tar".data := by decide

theorem pathSuffix_examples :
    pathSuffix "/b/Book.PDF" = ".PDF" ∧ pathSuffix "/b/x" = ""
    ∧ pathSuffix "/b/.hidden" = "" ∧ pathSuffix "/a/b.tar.gz" = ".gz" := by decide

theorem mem_insertDesc {x y : Book × Nat} {l : List (Book × Nat)} :
    y ∈ insertDesc x l ↔ y = x ∨ y ∈ l := by
  induction l with
  | nil => simp [insertDesc]
  | cons z zs ih =>
    unfold insertDesc
    split
    · simp
    · simp [ih]
      tauto

theorem mem_sortByScoreDesc {y : Book × Nat} {l : List (Book × Nat)} :
    y ∈ sortByScoreDesc l ↔ y ∈ l := by
  induction l with
  | nil => simp [sortByScoreDesc]
  | cons z zs ih =>
    show y ∈ insertDesc z (sortByScoreDesc zs) ↔ _
    rw [mem_insertDesc, ih]
    simp

/-- Claim C1 (amended: the base score is the integer *truncation* of
`100·matched/total·0.9`, not its rounding): for a non-empty query, a
record whose searchable text contains the full lowercased query scores
100; one that does not but matches at least one term, with a positive
combined score, is returned with score
`min 100 (matched·90/total + 5·wordStarts)`; and a record whose score
is 0 is excluded from the result list. -/
theorem C1_fast_search_score :
    ∀ (q : String) (books : List Book) (b : Book), b ∈ books → pyStrip q.data ≠ [] →
      (isSubstr (lowerL q.data) (searchableTextOf b) = true →
        (b, 100) ∈ search_books q books)
      ∧ (isSubstr (lowerL q.data) (searchableTextOf b) = false →
          0 < matchedTermCount q b →
          0 < matchedTermCount q b * 90 / (queryTermsOf q).length + 5 * wordStartCount q b →
          (b, min 100 (matchedTermCount q b * 90 / (queryTermsOf q).length
              + 5 * wordStartCount q b)) ∈ search_books q books)
      ∧ (score_book q b = 0 → ∀ s, (b, s) ∉ search_books q books) := by
  intro q books b hb hq
  have hsb : search_books q books =
      sortByScoreDesc (books.filterMap (fun b =>
        if 0 < score_book q b then some (b, score_book q b) else none)) := by
    unfold search_books
    rw [if_neg hq]
  refine ⟨?_, ?_, ?_⟩
  · intro h100
    have hs : score_book q b = 100 := by
      unfold score_book
      rw [if_pos h100]
    rw [hsb, mem_sortByScoreDesc, List.mem_filterMap]
    refine ⟨b, hb, ?_⟩
    rw [hs, if_pos (by norm_num)]
  · intro hno hmat hpos
    have hs : score_book q b = min 100 (matchedTermCount q b * 90 / (queryTermsOf q).length
        + 5 * wordStartCount q b) := by
      unfold score_book
      rw [if_neg (by simp [hno]), if_pos hmat]
    rw [hsb, mem_sortByScoreDesc, List.mem_filterMap]
    refine ⟨b, hb, ?_⟩
    rw [hs, if_pos (lt_min_iff.mpr ⟨by norm_num, hpos⟩)]
  · intro h0 s hmem
    rw [hsb, mem_sortByScoreDesc, List.mem_filterMap] at hmem
    obtain ⟨a, _, hfa⟩ := hmem
    by_cases hpos : 0 < score_book q a
    · rw [if_pos hpos] at hfa
      have ha : a = b := congrArg Prod.fst (Option.some.inj hfa)
      rw [ha, h0] at hpos
      exact absurd hpos (by norm_num)
    · rw [if_neg hpos] at hfa
      exact Option.noConfusion hfa

/-- Witness for C1: the spec's own example, query `"har pot"` against
the Harry Potter record — two matched terms, two word-start bonuses,
score capped at 100. -/
theorem C1_fast_search_score_witness :
    (hpBook, 100) ∈ search_books "har pot" [hpBook] := by
  have h := (C1_fast_search_score "har pot" [hpBook] hpBook
      (List.mem_singleton.mpr rfl) (by decide)).2.1 (by decide) (by decide) (by decide)
  have he : min 100 (matchedTermCount "har pot" hpBook * 90
      / (queryTermsOf "har pot").length + 5 * wordStartCount "har pot" hpBook) = 100 := by
    decide
  rw [he] at h
  exact h

theorem roundHalfEven_eq_add_one (x : ℚ) (n : ℤ) (hf : ⌊x⌋ = n) (h : 1/2 < x - n) :
    roundHalfEven x = n + 1 := by
  unfold roundHalfEven
  rw [hf, if_neg (by linarith), if_pos h]

/-- Counterexample to C1 as stated: for query `"otter g h i j k m"`
(seven terms, one substring match, no word-start bonus) against
`potter.pdf`, the code truncates `90/7` to 12 while the claim's
`round(100 × 1/7 × 0.9)` is 13. -/
theorem C1_round_vs_truncate :
    search_books "otter g h i j k m" [potterBook] = [(potterBook, 12)]
    ∧ specFastScore "otter g h i j k m" potterBook = 13
    ∧ ∀ s, (potterBook, s) ∈ search_books "otter g h i j k m" [potterBook] →
        (s : ℤ) ≠ specFastScore "otter g h i j k m" potterBook := by
  have h13 : specFastScore "otter g h i j k m" potterBook = 13 := by
    have h1 : matchedTermCount "otter g h i j k m" potterBook = 1 := by decide
    have h2 : (queryTermsOf "otter g h i j k m").length = 7 := by decide
    have h3 : wordStartCount "otter g h i j k m" potterBook = 0 := by decide
    unfold specFastScore
    rw [h1, h2, h3]
    have harg : (100 * ((1 : ℕ) : ℚ)) / ((7 : ℕ) : ℚ) * (9/10) = 90/7 := by
      push_cast
      ring
    rw [harg]
    have hf : ⌊(90 : ℚ)/7⌋ = 12 := by
      rw [Int.floor_eq_iff]
      norm_num
    rw [roundHalfEven_eq_add_one ((90:ℚ)/7) 12 hf (by push_cast; norm_num)]
    norm_num
  refine ⟨by rfl, h13, ?_⟩
  intro s hs
  rw [show search_books "otter g h i j k m" [potterBook] = [(potterBook, 12)] from rfl] at hs
  rw [List.mem_singleton] at hs
  have hs12 : s = 12 := congrArg Prod.snd hs
  rw [hs12, h13]
  norm_num

/-- Claim C4 (amended: the daily-refresh branch requires *strictly more*
than 23 hours since the last refresh, not "at least"): the staleness
check returns true iff the catalog is missing/unreadable, older than the
7-day max age, or the local hour is the daily refresh hour 3 with more
than 23 hours elapsed; in particular an 8-day-old catalog is stale and a
1-hour-old catalog outside the refresh window is not. -/
theorem C4_staleness_iff :
    (∀ (read : Option ℚ) (now : ℚ) (h : Nat),
        should_refresh_catalog read now h = true ↔
          (read = none ∨ catalog_max_age_days * 86400 < now - read.getD 0
            ∨ (h = daily_refresh_hour ∧ 23 * 3600 < now - read.getD 0)))
    ∧ should_refresh_catalog (some 0) (8 * 86400) 10 = true
    ∧ should_refresh_catalog (some 0) 3600 10 = false := by
  refine ⟨?_, ?_, ?_⟩
  · intro read now h
    cases read with
    | none => simp [should_refresh_catalog]
    | some t =>
      simp only [should_refresh_catalog, Option.getD_some]
      split_ifs with h1 h2
      · simp [h1]
      · simp [h2]
      · simp [h1, h2]
  · unfold should_refresh_catalog catalog_max_age_days
    norm_num
  · unfold should_refresh_catalog catalog_max_age_days daily_refresh_hour
    norm_num

/-- Counterexample to C4 as stated: with exactly 23 hours elapsed at
hour 3 the code does not refresh, while the claim's "at least 23 hours"
condition says it should. -/
theorem C4_exactly_23_hours :
    should_refresh_catalog (some 0) 82800 3 = false
    ∧ specStaleClaim (some 0) 82800 3 := by
  constructor
  · unfold should_refresh_catalog catalog_max_age_days daily_refresh_hour
    norm_num
  · right
    right
    exact ⟨rfl, by norm_num⟩

/-- Counterexample to C5 as stated: a build whose write fails after one
character leaves the catalog file holding `"N"` — neither the old
content nor the new serialization ("write succeeds in full or the prior
catalog remains intact" is false of the code). -/
theorem C5_truncating_write :
    (build_catalog fsEmpty "/w" [] 0 (fun _ => "NEW") "OLD" (.writeFail 1)).2 ≠ "OLD"
    ∧ (build_catalog fsEmpty "/w" [] 0 (fun _ => "NEW") "OLD" (.writeFail 1)).2 ≠ "NEW" := by
  constructor
  · intro h
    exact absurd (congrArg String.data h) (by decide)
  · intro h
    exact absurd (congrArg String.data h) (by decide)

/-- Claim C5 (amended: the write is not atomic — if the open fails the
prior catalog file is intact, but once opened the file is truncated and
a mid-write failure leaves only a prefix of the new serialization;
build swallows the error either way). -/
theorem C5_persist_prefix_or_intact :
    ∀ (old new : String) (o : WriteOutcome),
      persistedContent old new o = old
      ∨ ∃ k, persistedContent old new o = ⟨new.data.take k⟩ := by
  intro old new o
  cases o with
  | success =>
    right
    refine ⟨new.data.length, ?_⟩
    rw [List.take_length]
    rfl
  | openFail => left; rfl
  | writeFail k =>
    right
    exact ⟨k, rfl⟩

/-- Claim C8: stats computation on the empty book list returns the
empty stats object, and on any nonempty list the average-size division
is taken with a positive denominator (the computation is guarded and
total). -/
theorem C8_stats_empty_guarded :
    calculate_stats [] = none
    ∧ ∀ (b : Book) (bs : List Book),
        ∃ s, calculate_stats (b :: bs) = some s
          ∧ s.average_size_mb = pyRound 2 (totalSizeMb (b :: bs) / ((b :: bs).length : ℚ))
          ∧ 0 < (b :: bs).length := by
  refine ⟨rfl, ?_⟩
  intro b bs
  exact ⟨_, rfl, rfl, Nat.succ_pos _⟩

/-- Claim C10: a failed persistence attempt in `build_catalog` is
swallowed — the returned in-memory catalog is the same whatever the
write outcome, and after a failed open the file still holds the old
content (so a subsequent load can observe an older catalog than the one
just returned). -/
theorem C10_build_ignores_write_failure :
    ∀ (fs : FS) (cwd : String) (dirs : List String) (now : ℚ) (enc : Catalog → String)
      (old : String) (o₁ o₂ : WriteOutcome),
      (build_catalog fs cwd dirs now enc old o₁).1 = (build_catalog fs cwd dirs now enc old o₂).1
      ∧ (build_catalog fs cwd dirs now enc old .openFail).2 = old := by
  intro fs cwd dirs now enc old o₁ o₂
  exact ⟨rfl, rfl⟩

/-- Claim C9: when the initial validation passes, a credential is
configured and the converter reports failure, delivery proceeds with
the original file; with the transport succeeding, a failure result
surfaces exactly when the re-validation of the file being sent (the
original) fails. -/
theorem C9_conversion_failure_fallback :
    ∀ (fs1 fs2 : String → FileStat) (maxMb : ℚ) (convPath : Option String) (path : String),
      validate_file_for_kindle fs1 maxMb path = true →
      (send_book_to_kindle fs1 fs2 maxMb true false convPath true path).sent_file
          = (if validate_file_for_kindle fs2 maxMb path = true then some path else none)
      ∧ ((send_book_to_kindle fs1 fs2 maxMb true false convPath true path).success = false
          ↔ validate_file_for_kindle fs2 maxMb path = false) := by
  intro fs1 fs2 maxMb convPath path h1
  unfold send_book_to_kindle
  rw [h1]
  by_cases h2 : validate_file_for_kindle fs2 maxMb path = true
  · simp [h2]
  · simp only [Bool.not_eq_true] at h2
    simp [h2]

/-- Witness for C9: a present 1 MB pdf under a 50 MB limit, converter
failed, transport fine — the original file is the one sent. -/
theorem C9_conversion_failure_fallback_witness :
    (send_book_to_kindle fsGood fsGood 50 true false none true "/b/x.pdf").sent_file
        = some "/b/x.pdf" := by
  have hval : validate_file_for_kindle fsGood 50 "/b/x.pdf" = true := by
    have hsuf : (⟨lowerL (pathSuffix "/b/x.pdf").data⟩ : String) = ".pdf" := by decide
    unfold validate_file_for_kindle fsGood
    rw [hsuf]
    norm_num
    decide
  have h := (C9_conversion_failure_fallback fsGood fsGood 50 none "/b/x.pdf" hval).1
  rw [h, if_pos hval]

theorem foldl_preserves {α σ : Type} {P : σ → Prop} {f : σ → α → σ}
    (hf : ∀ st x, P st → P (f st x)) :
    ∀ (l : List α) (st : σ), P st → P (l.foldl f st) := by
  intro l
  induction l with
  | nil => intro st h; exact h
  | cons x xs ih => intro st h; exact ih (f st x) (hf st x h)

theorem foldl_establishes {α σ : Type} {Q : σ → Prop} {f : σ → α → σ} {x : α}
    (hx : ∀ st, Q (f st x)) (hk : ∀ st y, Q st → Q (f st y)) :
    ∀ (l : List α) (st : σ), x ∈ l → Q (l.foldl f st) := by
  intro l
  induction l with
  | nil => intro st h; exact absurd h (List.not_mem_nil x)
  | cons y ys ih =>
    intro st h
    rcases List.mem_cons.mp h with h | h
    · subst h
      exact foldl_preserves hk ys (f st x) (hx st)
    · exact ih (f st y) h

theorem mkBook_full_path (fs : FS) (cwd ext fp : String) :
    (mkBook fs cwd ext fp).full_path = canonS cwd fp := rfl

theorem mkBook_directory (fs : FS) (cwd ext fp : String) :
    (mkBook fs cwd ext fp).directory = dirnameS (canonS cwd fp) := rfl

theorem scan_step_inv (fs : FS) (cwd : String) (ext : String) :
    ∀ st fp, ScanInv st → ScanInv (scan_step fs cwd ext st fp) := by
  intro st fp h
  obtain ⟨hn, hd, hiff⟩ := h
  unfold scan_step
  by_cases hseen : canonS cwd fp ∈ st.1
  · rw [if_pos hseen]
    exact ⟨hn, hd, hiff⟩
  · rw [if_neg hseen]
    refine ⟨?_, ?_, ?_⟩
    · show (List.map Book.full_path (st.2 ++ [mkBook fs cwd ext fp])).Nodup
      rw [List.map_append, List.nodup_append]
      refine ⟨hn, ?_, ?_⟩
      · simp [mkBook_full_path]
      · intro a ha hb
        simp only [List.map_cons, List.map_nil, mkBook_full_path, List.mem_singleton] at hb
        subst hb
        exact hseen ((hiff _).mpr ha)
    · show ∀ b ∈ st.2 ++ [mkBook fs cwd ext fp], b.directory = dirnameS b.full_path
      intro b hb
      rcases List.mem_append.mp hb with hb | hb
      · exact hd b hb
      · rw [List.mem_singleton.mp hb]
        rw [mkBook_directory, mkBook_full_path]
    · show ∀ p, p ∈ canonS cwd fp :: st.1 ↔
          p ∈ List.map Book.full_path (st.2 ++ [mkBook fs cwd ext fp])
      intro p
      rw [List.map_append, List.mem_append, List.mem_cons]
      simp only [List.map_cons, List.map_nil, mkBook_full_path, List.mem_singleton]
      rw [← hiff p]
      tauto

theorem find_ebook_files_inv (fs : FS) (cwd : String) (dirs : List String) :
    ScanInv (dirs.foldl (fun st d =>
      supported_formats.foldl (fun st ext =>
          ((fs.files d).filter (fun f => ext.data.isSuffixOf f.data)).foldl
            (scan_step fs cwd ext) st)
        st) ([], [])) := by
  refine foldl_preserves ?_ dirs ([], []) ?_
  · intro st d hst
    refine foldl_preserves ?_ supported_formats st hst
    intro st ext hst
    exact foldl_preserves (scan_step_inv fs cwd ext) _ st hst
  · refine ⟨List.nodup_nil, ?_, ?_⟩
    · intro b hb; exact absurd hb (List.not_mem_nil b)
    · intro p; simp

theorem scan_step_seen_grows (fs : FS) (cwd : String) (ext : String) (p : String) :
    ∀ st fp, p ∈ st.1 → p ∈ (scan_step fs cwd ext st fp).1 := by
  intro st fp h
  unfold scan_step
  by_cases hseen : canonS cwd fp ∈ st.1
  · rw [if_pos hseen]; exact h
  · rw [if_neg hseen]; exact List.mem_cons_of_mem _ h

theorem scan_step_sees (fs : FS) (cwd : String) (ext : String) (fp : String) :
    ∀ st, canonS cwd fp ∈ (scan_step fs cwd ext st fp).1 := by
  intro st
  unfold scan_step
  by_cases hseen : canonS cwd fp ∈ st.1
  · rw [if_pos hseen]; exact hseen
  · rw [if_neg hseen]; exact List.mem_cons_self _ _

theorem find_ebook_files_complete (fs : FS) (cwd : String) (dirs : List String)
    (d ext f : String) (hd : d ∈ dirs) (hext : ext ∈ supported_formats)
    (hf : f ∈ fs.files d) (hsuf : ext.data.isSuffixOf f.data = true) :
    ∃ b ∈ find_ebook_files fs cwd dirs, b.full_path = canonS cwd f := by
  have hseen : canonS cwd f ∈ (dirs.foldl (fun st d =>
      supported_formats.foldl (fun st ext =>
          ((fs.files d).filter (fun f => ext.data.isSuffixOf f.data)).foldl
            (scan_step fs cwd ext) st)
        st) ([], [])).1 := by
    have hstep3 : ∀ st : List String × List Book, canonS cwd f ∈
        (((fs.files d).filter (fun g => ext.data.isSuffixOf g.data)).foldl
          (scan_step fs cwd ext) st).1 := by
      intro st
      refine @foldl_establishes String (List String × List Book)
        (fun st => canonS cwd f ∈ st.1) (scan_step fs cwd ext) f
        (scan_step_sees fs cwd ext f)
        (fun st y h => scan_step_seen_grows fs cwd ext _ st y h) _ st ?_
      exact List.mem_filter.mpr ⟨hf, hsuf⟩
    have hgrow : ∀ (dd e : String) (st : List String × List Book), canonS cwd f ∈ st.1 →
        canonS cwd f ∈
        (((fs.files dd).filter (fun g => e.data.isSuffixOf g.data)).foldl
          (scan_step fs cwd e) st).1 := by
      intro dd e st h
      exact @foldl_preserves String (List String × List Book)
        (fun st => canonS cwd f ∈ st.1) (scan_step fs cwd e)
        (fun st y h => scan_step_seen_grows fs cwd e _ st y h) _ st h
    have hstep2 : ∀ st : List String × List Book, canonS cwd f ∈
        (supported_formats.foldl (fun st e =>
          ((fs.files d).filter (fun g => e.data.isSuffixOf g.data)).foldl
            (scan_step fs cwd e) st) st).1 := by
      intro st
      exact @foldl_establishes String (List String × List Book)
        (fun st => canonS cwd f ∈ st.1)
        (fun st e => ((fs.files d).filter (fun g => e.data.isSuffixOf g.data)).foldl
            (scan_step fs cwd e) st) ext
        (fun st => hstep3 st) (fun st e h => hgrow d e st h)
        supported_formats st hext
    exact @foldl_establishes String (List String × List Book)
      (fun st => canonS cwd f ∈ st.1)
      (fun st d => supported_formats.foldl (fun st ext =>
          ((fs.files d).filter (fun f => ext.data.isSuffixOf f.data)).foldl
            (scan_step fs cwd ext) st) st) d
      (fun st => hstep2 st)
      (fun st d' h => @foldl_preserves String (List String × List Book)
        (fun st => canonS cwd f ∈ st.1)
        (fun st e => ((fs.files d').filter (fun g => e.data.isSuffixOf g.data)).foldl
            (scan_step fs cwd e) st)
        (fun st e h => hgrow d' e st h) supported_formats st h)
      dirs ([], []) hd
  have hinv := find_ebook_files_inv fs cwd dirs
  have hmem := (hinv.2.2 (canonS cwd f)).mp hseen
  obtain ⟨b, hb, hbp⟩ := List.mem_map.mp hmem
  exact ⟨b, hb, hbp⟩

theorem dedupAux_not_seen (cwd : String) :
    ∀ (books : List Book) (seen : List String) (b : Book),
      b ∈ dedupBooksAux cwd seen books → b.full_path ∉ seen := by
  intro books
  induction books with
  | nil => intro seen b hb; exact absurd hb (List.not_mem_nil b)
  | cons hd tl ih =>
    intro seen b hb
    unfold dedupBooksAux at hb
    by_cases hs : canonS cwd hd.full_path ∈ seen
    · rw [if_pos hs] at hb
      exact ih seen b hb
    · rw [if_neg hs] at hb
      rcases List.mem_cons.mp hb with hb | hb
      · subst hb
        exact hs
      · intro hmem
        exact ih _ b hb (List.mem_cons_of_mem _ hmem)

theorem dedupAux_nodup (cwd : String) :
    ∀ (books : List Book) (seen : List String),
      ((dedupBooksAux cwd seen books).map Book.full_path).Nodup := by
  intro books
  induction books with
  | nil => intro seen; simp [dedupBooksAux]
  | cons hd tl ih =>
    intro seen
    unfold dedupBooksAux
    by_cases hs : canonS cwd hd.full_path ∈ seen
    · rw [if_pos hs]
      exact ih seen
    · rw [if_neg hs]
      rw [List.map_cons, List.nodup_cons]
      refine ⟨?_, ih _⟩
      intro hmem
      obtain ⟨b, hb, hbp⟩ := List.mem_map.mp hmem
      have := dedupAux_not_seen cwd tl _ b hb
      rw [hbp] at this
      exact this (List.mem_cons_self _ _)

theorem dedupAux_shape (cwd : String) :
    ∀ (books : List Book) (seen : List String) (b : Book),
      b ∈ dedupBooksAux cwd seen books → ∃ o ∈ books, b = updateBook cwd o := by
  intro books
  induction books with
  | nil => intro seen b hb; exact absurd hb (List.not_mem_nil b)
  | cons hd tl ih =>
    intro seen b hb
    unfold dedupBooksAux at hb
    by_cases hs : canonS cwd hd.full_path ∈ seen
    · rw [if_pos hs] at hb
      obtain ⟨o, ho, he⟩ := ih seen b hb
      exact ⟨o, List.mem_cons_of_mem _ ho, he⟩
    · rw [if_neg hs] at hb
      rcases List.mem_cons.mp hb with hb | hb
      · exact ⟨hd, List.mem_cons_self _ _, hb⟩
      · obtain ⟨o, ho, he⟩ := ih _ b hb
        exact ⟨o, List.mem_cons_of_mem _ ho, he⟩

theorem updateBook_full_path (cwd : String) (b : Book) :
    (updateBook cwd b).full_path = canonS cwd b.full_path := rfl

theorem updateBook_directory (cwd : String) (b : Book) :
    (updateBook cwd b).directory = dirnameS (canonS cwd b.full_path) := rfl

theorem dedupAux_first_kept (cwd : String) :
    ∀ (books : List Book) (seen : List String) (b : Book),
      b ∈ dedupBooksAux cwd seen books →
      ∃ o, books.find? (fun x => canonS cwd x.full_path == b.full_path) = some o
        ∧ b = updateBook cwd o := by
  intro books
  induction books with
  | nil => intro seen b hb; exact absurd hb (List.not_mem_nil b)
  | cons hd tl ih =>
    intro seen b hb
    have hbseen := dedupAux_not_seen cwd (hd :: tl) seen b hb
    unfold dedupBooksAux at hb
    by_cases hs : canonS cwd hd.full_path ∈ seen
    · rw [if_pos hs] at hb
      obtain ⟨o, ho, he⟩ := ih seen b hb
      refine ⟨o, ?_, he⟩
      rw [List.find?_cons_of_neg, ho]
      rw [beq_iff_eq]
      intro hcontra
      rw [hcontra] at hs
      exact dedupAux_not_seen cwd tl seen b hb hs
    · rw [if_neg hs] at hb
      rcases List.mem_cons.mp hb with hb | hb
      · subst hb
        refine ⟨hd, ?_, rfl⟩
        rw [List.find?_cons_of_pos]
        rw [updateBook_full_path]
        exact beq_self_eq_true _
      · obtain ⟨o, ho, he⟩ := ih _ b hb
        have hne := dedupAux_not_seen cwd tl _ b hb
        refine ⟨o, ?_, he⟩
        rw [List.find?_cons_of_neg, ho]
        rw [beq_iff_eq]
        intro hcontra
        rw [hcontra] at hne
        exact hne (List.mem_cons_self _ _)

theorem dedupAux_covers (cwd : String) :
    ∀ (books : List Book) (seen : List String) (o : Book), o ∈ books →
      canonS cwd o.full_path ∈ seen
      ∨ ∃ b ∈ dedupBooksAux cwd seen books, b.full_path = canonS cwd o.full_path := by
  intro books
  induction books with
  | nil => intro seen o ho; exact absurd ho (List.not_mem_nil o)
  | cons hd tl ih =>
    intro seen o ho
    unfold dedupBooksAux
    by_cases hs : canonS cwd hd.full_path ∈ seen
    · rw [if_pos hs]
      rcases List.mem_cons.mp ho with ho | ho
      · subst ho
        exact Or.inl hs
      · exact ih seen o ho
    · rw [if_neg hs]
      rcases List.mem_cons.mp ho with ho | ho
      · subst ho
        exact Or.inr ⟨updateBook cwd o, List.mem_cons_self _ _, updateBook_full_path cwd o⟩
      · rcases ih (canonS cwd hd.full_path :: seen) o ho with h | ⟨b, hb, hbp⟩
        · rcases List.mem_cons.mp h with h | h
          · exact Or.inr ⟨updateBook cwd hd, List.mem_cons_self _ _,
              (updateBook_full_path cwd hd).trans h.symm⟩
          · exact Or.inl h
        · exact Or.inr ⟨b, List.mem_cons_of_mem _ hb, hbp⟩

/-- Claim C3: after scanning and after deduplication the record lists
hold pairwise-distinct canonical full paths, each kept record's
directory is the parent of its full path, the record kept for a
canonical path is the updated *first* occurrence, and every input
record's canonical path is represented exactly once. -/
theorem C3_unique_canonical_paths :
    (∀ (fs : FS) (cwd : String) (dirs : List String),
        ((find_ebook_files fs cwd dirs).map Book.full_path).Nodup
        ∧ ∀ b ∈ find_ebook_files fs cwd dirs, b.directory = dirnameS b.full_path)
    ∧ ∀ (cwd : String) (books : List Book),
        ((deduplicate_books cwd books).map Book.full_path).Nodup
        ∧ (∀ b ∈ deduplicate_books cwd books,
            b.directory = dirnameS b.full_path
            ∧ ∃ o, books.find? (fun x => canonS cwd x.full_path == b.full_path) = some o
                ∧ b = updateBook cwd o)
        ∧ ∀ o ∈ books, ∃ b ∈ deduplicate_books cwd books,
            b.full_path = canonS cwd o.full_path := by
  constructor
  · intro fs cwd dirs
    have hinv := find_ebook_files_inv fs cwd dirs
    exact ⟨hinv.1, hinv.2.1⟩
  · intro cwd books
    refine ⟨dedupAux_nodup cwd books [], ?_, ?_⟩
    · intro b hb
      constructor
      · obtain ⟨o, _, he⟩ := dedupAux_shape cwd books [] b hb
        rw [he, updateBook_directory, updateBook_full_path]
      · exact dedupAux_first_kept cwd books [] b hb
    · intro o ho
      rcases dedupAux_covers cwd books [] o ho with h | h
      · exact absurd h (List.not_mem_nil _)
      · exact h

/-- Witness for C3: two records whose paths canonicalize identically
collapse to one whose directory is its path's parent. -/
theorem C3_unique_canonical_paths_witness :
    ((deduplicate_books "/w" sampleBooks).map Book.full_path).Nodup
    ∧ ∃ b ∈ deduplicate_books "/w" sampleBooks,
        b.full_path = canonS "/w" sampleDupBook.full_path := by
  constructor
  · exact (C3_unique_canonical_paths.2 "/w" sampleBooks).1
  · exact (C3_unique_canonical_paths.2 "/w" sampleBooks).2.2 sampleDupBook
      (List.mem_cons_of_mem _ (List.mem_singleton.mpr rfl))

/-- Claim C6 (amended: matching is case-*sensitive* — the glob pattern
is built from the lowercase extension list, so exactly the files whose
names end in a lowercase supported extension are picked up): every
enumerated file ending in a supported extension appears in the
scanner's output under its canonical path. -/
theorem C6_extension_matching :
    ∀ (fs : FS) (cwd : String) (dirs : List String) (d ext f : String),
      d ∈ dirs → ext ∈ supported_formats → f ∈ fs.files d →
      ext.data.isSuffixOf f.data = true →
      ∃ b ∈ find_ebook_files fs cwd dirs, b.full_path = canonS cwd f := by
  intro fs cwd dirs d ext f hd hext hf hsuf
  exact find_ebook_files_complete fs cwd dirs d ext f hd hext hf hsuf

/-- Witness for C6: a lowercase `.pdf` file is scanned in. -/
theorem C6_extension_matching_witness :
    ∃ b ∈ find_ebook_files fsOk "/w" ["/b"], b.full_path = canonS "/w" "/b/x.pdf" := by
  refine C6_extension_matching fsOk "/w" ["/b"] "/b" ".pdf" "/b/x.pdf"
    (List.mem_singleton.mpr rfl) (by decide) ?_ (by decide)
  show "/b/x.pdf" ∈ fsOk.files "/b"
  decide

/-- Counterexample to C6 as stated: `Book.PDF` has extension `.PDF`,
case-insensitively equal to the supported `.pdf`, yet the scan of its
directory returns no records (POSIX glob is case-sensitive). -/
theorem C6_uppercase_extension_missed :
    ((⟨lowerL (pathSuffix "/b/Book.PDF").data⟩ : String) ∈ supported_formats)
    ∧ find_ebook_files fsPDF "/w" ["/b"] = [] := by
  constructor
  · decide
  · rfl

theorem splitSlash_cons_slash (cs : List Char) :
    splitSlash ('/' :: cs) = [] :: splitSlash cs := by
  simp [splitSlash]

theorem splitSlash_cons_ne (c : Char) (cs : List Char) (h : c ≠ '/') :
    splitSlash (c :: cs) = (c :: (splitSlash cs).headD []) :: (splitSlash cs).tail := by
  simp [splitSlash, h]

theorem splitSlash_ne_nil : ∀ l : List Char, splitSlash l ≠ [] := by
  intro l
  induction l with
  | nil => simp [splitSlash]
  | cons c cs ih =>
    unfold splitSlash
    by_cases hc : c = '/'
    · simp [hc]
    · simp only [if_neg hc]
      simp

theorem splitSlash_no_slash : ∀ (l : List Char) (x : List Char), x ∈ splitSlash l → '/' ∉ x := by
  intro l
  induction l with
  | nil =>
    intro x hx
    simp [splitSlash] at hx
    simp [hx]
  | cons c cs ih =>
    intro x hx
    unfold splitSlash at hx
    by_cases hc : c = '/'
    · rw [if_pos hc] at hx
      rcases List.mem_cons.mp hx with h | h
      · simp [h]
      · exact ih x h
    · rw [if_neg hc] at hx
      obtain ⟨r, hr⟩ : ∃ r, splitSlash cs = r := ⟨_, rfl⟩
      rw [hr] at hx
      cases r with
      | nil => exact absurd hr (splitSlash_ne_nil cs)
      | cons h t =>
        simp only [List.headD_cons, List.tail_cons] at hx
        rcases List.mem_cons.mp hx with hx | hx
        · subst hx
          intro hmem
          rcases List.mem_cons.mp hmem with hmem | hmem
          · exact hc hmem.symm
          · exact ih h (hr ▸ List.mem_cons_self h t) hmem
        · exact ih x (hr ▸ List.mem_cons_of_mem h hx)

theorem splitSlash_of_no_slash : ∀ x : List Char, '/' ∉ x → splitSlash x = [x] := by
  intro x
  induction x with
  | nil => intro _; rfl
  | cons c cs ih =>
    intro h
    have hc : c ≠ '/' := fun hcc => h (hcc ▸ List.mem_cons_self c cs)
    have hcs : '/' ∉ cs := fun hmem => h (List.mem_cons_of_mem c hmem)
    unfold splitSlash
    rw [if_neg hc, ih hcs]
    rfl

theorem splitSlash_append_slash :
    ∀ (x r : List Char), '/' ∉ x → splitSlash (x ++ '/' :: r) = x :: splitSlash r := by
  intro x
  induction x with
  | nil =>
    intro r _
    exact splitSlash_cons_slash r
  | cons c cs ih =>
    intro r h
    have hc : c ≠ '/' := fun hcc => h (hcc ▸ List.mem_cons_self c cs)
    have hcs : '/' ∉ cs := fun hmem => h (List.mem_cons_of_mem c hmem)
    show splitSlash (c :: (cs ++ '/' :: r)) = (c :: cs) :: splitSlash r
    rw [splitSlash_cons_ne c _ hc, ih r hcs]
    rfl

theorem splitSlash_join :
    ∀ L : List (List Char), L ≠ [] → (∀ x ∈ L, '/' ∉ x) →
      splitSlash (joinSep '/' L) = L := by
  intro L
  induction L with
  | nil => intro h _; exact absurd rfl h
  | cons x t ih =>
    intro _ hns
    cases t with
    | nil =>
      show splitSlash (joinSep '/' [x]) = [x]
      exact splitSlash_of_no_slash x (hns x (List.mem_cons_self x []))
    | cons y t' =>
      show splitSlash (x ++ '/' :: joinSep '/' (y :: t')) = x :: y :: t'
      rw [splitSlash_append_slash x _ (hns x (List.mem_cons_self _ _))]
      rw [ih (by simp) (fun z hz => hns z (List.mem_cons_of_mem x hz))]

theorem splitSlash_replicate :
    ∀ (k : Nat) (r : List Char),
      splitSlash (List.replicate k '/' ++ r) = List.replicate k [] ++ splitSlash r := by
  intro k
  induction k with
  | zero => intro r; rfl
  | succ n ih =>
    intro r
    show splitSlash ('/' :: (List.replicate n '/' ++ r)) = [] :: (List.replicate n [] ++ splitSlash r)
    rw [splitSlash_cons_slash, ih r]

theorem normStep_nil_comp (i : Bool) (acc : List (List Char)) :
    normStep i acc [] = acc := by
  unfold normStep
  rw [if_pos (Or.inl rfl)]

theorem normStep_clean_comp (i : Bool) (acc : List (List Char)) (comp : List Char)
    (h : cleanComp comp) : normStep i acc comp = acc ++ [comp] := by
  obtain ⟨h1, h2, h3, _⟩ := h
  unfold normStep
  rw [if_neg (by simp [h1, h2]), if_pos (Or.inl h3)]

theorem getLast?_clean {acc : List (List Char)} (h : ∀ c ∈ acc, cleanComp c) :
    acc.getLast? ≠ some ['.', '.'] := by
  intro hlast
  have hmem : ['.', '.'] ∈ acc := by
    cases acc with
    | nil => exact absurd hlast (by simp)
    | cons a t =>
      rw [List.getLast?_eq_getLast _ (by simp)] at hlast
      rw [← Option.some.inj hlast]
      exact List.getLast_mem _
  exact (h _ hmem).2.2.1 rfl

theorem normStep_clean (acc : List (List Char)) (comp : List Char)
    (hacc : ∀ c ∈ acc, cleanComp c) (hns : '/' ∉ comp) :
    ∀ c ∈ normStep true acc comp, cleanComp c := by
  intro c hc
  unfold normStep at hc
  by_cases h1 : comp = [] ∨ comp = ['.']
  · rw [if_pos h1] at hc
    exact hacc c hc
  · rw [if_neg h1] at hc
    push_neg at h1
    by_cases h2 : comp ≠ ['.', '.'] ∨ (true = false ∧ acc = [])
        ∨ acc.getLast? = some ['.', '.']
    · rw [if_pos h2] at hc
      rcases List.mem_append.mp hc with hc | hc
      · exact hacc c hc
      · rw [List.mem_singleton.mp hc]
        have h3 : comp ≠ ['.', '.'] := by
          rcases h2 with h | h | h
          · exact h
          · exact absurd h.1 (by simp)
          · exact absurd h (getLast?_clean hacc)
        exact ⟨h1.1, h1.2, h3, hns⟩
    · rw [if_neg h2] at hc
      exact hacc c (List.dropLast_subset _ hc)

theorem foldl_normStep_clean :
    ∀ (comps : List (List Char)) (acc : List (List Char)),
      (∀ c ∈ acc, cleanComp c) → (∀ x ∈ comps, '/' ∉ x) →
      ∀ c ∈ comps.foldl (normStep true) acc, cleanComp c := by
  intro comps
  induction comps with
  | nil => intro acc hacc _ c hc; exact hacc c hc
  | cons x t ih =>
    intro acc hacc hns c hc
    exact ih (normStep true acc x)
      (normStep_clean acc x hacc (hns x (List.mem_cons_self _ _)))
      (fun y hy => hns y (List.mem_cons_of_mem _ hy)) c hc

theorem foldl_normStep_of_clean :
    ∀ (i : Bool) (comps : List (List Char)) (acc : List (List Char)),
      (∀ c ∈ comps, cleanComp c) →
      comps.foldl (normStep i) acc = acc ++ comps := by
  intro i comps
  induction comps with
  | nil => intro acc _; simp
  | cons x t ih =>
    intro acc h
    show (t.foldl (normStep i) (normStep i acc x)) = acc ++ x :: t
    rw [normStep_clean_comp i acc x (h x (List.mem_cons_self _ _))]
    rw [ih _ (fun y hy => h y (List.mem_cons_of_mem _ hy))]
    simp

theorem foldl_normStep_empties :
    ∀ (i : Bool) (k : Nat) (comps : List (List Char)) (acc : List (List Char)),
      (List.replicate k [] ++ comps).foldl (normStep i) acc = comps.foldl (normStep i) acc := by
  intro i k
  induction k with
  | zero => intro comps acc; rfl
  | succ n ih =>
    intro comps acc
    show ((List.replicate n [] ++ comps).foldl (normStep i) (normStep i acc []))
        = comps.foldl (normStep i) acc
    rw [normStep_nil_comp, ih]

theorem joinSep_cons_head :
    ∀ (c : List Char) (rest : List (List Char)),
      ∃ t, joinSep '/' (c :: rest) = c ++ t := by
  intro c rest
  cases rest with
  | nil => exact ⟨[], by simp [joinSep]⟩
  | cons y t' => exact ⟨'/' :: joinSep '/' (y :: t'), rfl⟩

theorem initSlashCount_bounds (p : List Char) (h : p.head? = some '/') :
    1 ≤ initSlashCount p ∧ initSlashCount p ≤ 2 := by
  unfold initSlashCount
  rw [if_pos h]
  by_cases h2 : (p.drop 1).head? = some '/' ∧ (p.drop 2).head? ≠ some '/'
  · rw [if_pos h2]; omega
  · rw [if_neg h2]; omega

theorem initSlashCount_replicate (k : Nat) (t : List Char)
    (h1 : 1 ≤ k) (h2 : k ≤ 2) (ht : t = [] ∨ ∃ ch t', t = ch :: t' ∧ ch ≠ '/') :
    initSlashCount (List.replicate k '/' ++ t) = k := by
  interval_cases k
  · rcases ht with ht | ⟨ch, t', ht, hch⟩
    · subst ht; rfl
    · subst ht
      show initSlashCount ('/' :: ch :: t') = 1
      simp [initSlashCount, hch]
  · rcases ht with ht | ⟨ch, t', ht, hch⟩
    · subst ht; rfl
    · subst ht
      show initSlashCount ('/' :: '/' :: ch :: t') = 2
      simp [initSlashCount, hch]

theorem normComps_clean (p : List Char) (h : p.head? = some '/') :
    ∀ c ∈ normComps p, cleanComp c := by
  have hk := (initSlashCount_bounds p h).1
  have hd : decide (0 < initSlashCount p) = true := decide_eq_true (by omega)
  unfold normComps
  rw [hd]
  exact foldl_normStep_clean _ [] (by simp) (fun x hx => splitSlash_no_slash p x hx)

theorem normpathL_abs_eq (p : List Char) (h : p.head? = some '/') :
    normpathL p = List.replicate (initSlashCount p) '/' ++ joinSep '/' (normComps p) := by
  have hp : p ≠ [] := by
    intro hh
    subst hh
    simp at h
  have hk := (initSlashCount_bounds p h).1
  have hne : List.replicate (initSlashCount p) '/' ++ joinSep '/' (normComps p) ≠ [] := by
    intro hh
    have h0 := (List.append_eq_nil.mp hh).1
    rw [List.replicate_eq_nil_iff] at h0
    omega
  unfold normpathL
  rw [if_neg hp, if_neg hne]

theorem normpathL_abs_head (p : List Char) (h : p.head? = some '/') :
    (normpathL p).head? = some '/' := by
  rw [normpathL_abs_eq p h]
  obtain ⟨n, hn⟩ : ∃ n, initSlashCount p = n + 1 :=
    ⟨initSlashCount p - 1, by have := (initSlashCount_bounds p h).1; omega⟩
  rw [hn, List.replicate_succ]
  rfl

theorem foldl_normStep_replicate_join (i : Bool) (k : Nat) (C : List (List Char))
    (hcl : ∀ c ∈ C, cleanComp c) :
    (splitSlash (List.replicate k '/' ++ joinSep '/' C)).foldl (normStep i) [] = C := by
  rw [splitSlash_replicate, foldl_normStep_empties]
  cases C with
  | nil => simp [joinSep, splitSlash, normStep_nil_comp]
  | cons c rest =>
    rw [splitSlash_join _ (by simp) (fun x hx => (hcl x hx).2.2.2)]
    rw [foldl_normStep_of_clean i _ [] hcl]
    simp

theorem joinSep_clean_shape (C : List (List Char)) (hcl : ∀ c ∈ C, cleanComp c) :
    joinSep '/' C = [] ∨ ∃ ch t', joinSep '/' C = ch :: t' ∧ ch ≠ '/' := by
  cases C with
  | nil => left; rfl
  | cons c rest =>
    right
    obtain ⟨t, ht⟩ := joinSep_cons_head c rest
    have hc := hcl c (List.mem_cons_self _ _)
    cases c with
    | nil => exact absurd rfl hc.1
    | cons ch c' =>
      refine ⟨ch, c' ++ t, ?_, fun hch => hc.2.2.2 (hch ▸ List.mem_cons_self _ _)⟩
      rw [ht]
      rfl

theorem normComps_abs_idem (p : List Char) (h : p.head? = some '/') :
    normComps (normpathL p) = normComps p := by
  have hclean := normComps_clean p h
  have heq := normpathL_abs_eq p h
  unfold normComps
  rw [heq]
  exact foldl_normStep_replicate_join _ _ _ hclean

theorem normpathL_idem_abs (p : List Char) (h : p.head? = some '/') :
    normpathL (normpathL p) = normpathL p := by
  have hb := initSlashCount_bounds p h
  have hqh := normpathL_abs_head p h
  have hkq : initSlashCount (normpathL p) = initSlashCount p := by
    rw [normpathL_abs_eq p h]
    exact initSlashCount_replicate _ _ hb.1 hb.2 (joinSep_clean_shape _ (normComps_clean p h))
  rw [normpathL_abs_eq (normpathL p) hqh, hkq, normComps_abs_idem p h, ← normpathL_abs_eq p h]

theorem abspathL_abs_head (cwd p : List Char) (h : cwd.head? = some '/') :
    (abspathL cwd p).head? = some '/' := by
  unfold abspathL
  by_cases hp : p.head? = some '/'
  · rw [if_pos hp]
    exact normpathL_abs_head p hp
  · rw [if_neg hp]
    apply normpathL_abs_head
    unfold joinPathL
    rw [if_neg hp]
    cases cwd with
    | nil => simp at h
    | cons a t =>
      have ha : a = '/' := by
        simp at h
        exact h
      by_cases h2 : (a :: t : List Char) = [] ∨ (a :: t).getLast? = some '/'
      · rw [if_pos h2]
        simp [ha]
      · rw [if_neg h2]
        simp [ha]

theorem canonL_idem (cwd p : List Char) (h : cwd.head? = some '/') :
    canonL cwd (canonL cwd p) = canonL cwd p := by
  have habs : (abspathL cwd p).head? = some '/' := abspathL_abs_head cwd p h
  have hq : (canonL cwd p).head? = some '/' := by
    unfold canonL
    exact normpathL_abs_head _ habs
  show normpathL (abspathL cwd (canonL cwd p)) = canonL cwd p
  rw [show abspathL cwd (canonL cwd p) = normpathL (canonL cwd p) from by
    unfold abspathL
    rw [if_pos hq]]
  have h1 : normpathL (canonL cwd p) = canonL cwd p := by
    show normpathL (normpathL (abspathL cwd p)) = canonL cwd p
    exact normpathL_idem_abs _ habs
  rw [h1]
  exact h1

theorem canonS_idem (cwd p : String) (h : cwd.data.head? = some '/') :
    canonS cwd (canonS cwd p) = canonS cwd p := by
  show (⟨canonL cwd.data (canonL cwd.data p.data)⟩ : String) = ⟨canonL cwd.data p.data⟩
  rw [canonL_idem cwd.data p.data h]

theorem updateBook_id (cwd : String) (b : Book)
    (h1 : canonS cwd b.full_path = b.full_path)
    (h2 : b.directory = dirnameS b.full_path) : updateBook cwd b = b := by
  cases b with
  | mk fn fp dir ext sz =>
    unfold updateBook
    simp only at h1 h2
    simp [h1, h2]

theorem dedupAux_fixed (cwd : String) :
    ∀ (books : List Book) (seen : List String),
      (∀ b ∈ books, canonS cwd b.full_path = b.full_path ∧ b.directory = dirnameS b.full_path) →
      ((books.map Book.full_path).Nodup) →
      (∀ b ∈ books, b.full_path ∉ seen) →
      dedupBooksAux cwd seen books = books := by
  intro books
  induction books with
  | nil => intro seen _ _ _; rfl
  | cons hd tl ih =>
    intro seen hfix hnd hseen
    have hhd := hfix hd (List.mem_cons_self _ _)
    unfold dedupBooksAux
    rw [hhd.1, if_neg (hseen hd (List.mem_cons_self _ _))]
    rw [updateBook_id cwd hd hhd.1 hhd.2]
    have hnd' : (∀ x ∈ tl, ¬x.full_path = hd.full_path)
        ∧ (List.map Book.full_path tl).Nodup := by simpa using hnd
    rw [ih (hd.full_path :: seen)
      (fun b hb => hfix b (List.mem_cons_of_mem _ hb))
      hnd'.2
      ?_]
    intro b hb hmem
    rcases List.mem_cons.mp hmem with hmem | hmem
    · exact hnd'.1 b hb hmem
    · exact hseen b (List.mem_cons_of_mem _ hb) hmem

theorem deduplicate_books_idem (cwd : String) (books : List Book)
    (h : cwd.data.head? = some '/') :
    deduplicate_books cwd (deduplicate_books cwd books) = deduplicate_books cwd books := by
  apply dedupAux_fixed
  · intro b hb
    obtain ⟨o, _, he⟩ := dedupAux_shape cwd books [] b hb
    subst he
    rw [updateBook_full_path, updateBook_directory]
    exact ⟨canonS_idem cwd o.full_path h, rfl⟩
  · exact dedupAux_nodup cwd books []
  · intro b _ hmem
    exact absurd hmem (List.not_mem_nil _)

/-- Claim C7: `deduplicate_catalog` is idempotent — a second application
(equivalently, an application to an already-deduplicated catalog)
changes nothing: book list, metadata book count and stats are all
unchanged (for an absolute working directory, as `os.getcwd()` returns). -/
theorem C7_deduplicate_idempotent :
    ∀ (cwd : String) (cat : Catalog), cwd.data.head? = some '/' →
      deduplicate_catalog cwd (deduplicate_catalog cwd cat) = deduplicate_catalog cwd cat := by
  intro cwd cat h
  cases cat with
  | mk md bks st =>
    cases bks with
    | none => rfl
    | some books =>
      show { metadata := { md with
                total_books := (deduplicate_books cwd (deduplicate_books cwd books)).length }
           , books := some (deduplicate_books cwd (deduplicate_books cwd books))
           , stats := calculate_stats (deduplicate_books cwd (deduplicate_books cwd books))
           : Catalog } = _
      rw [deduplicate_books_idem cwd books h]
      rfl

/-- Witness for C7: deduplicating the sample two-record catalog twice
equals deduplicating it once. -/
theorem C7_deduplicate_idempotent_witness :
    deduplicate_catalog "/w" (deduplicate_catalog "/w" sampleCat)
      = deduplicate_catalog "/w" sampleCat :=
  C7_deduplicate_idempotent "/w" sampleCat rfl

set_option maxRecDepth 100000 in
/-- Claim C2 (spec-modelled — the fuzzy strategy is absent from src/,
app.py calls a three-argument `search_books` the src version lacks):
fuzzy search of `"harry potter"` against
`"Harry Potter and the Sorcerer's Stone.epub"` at threshold 60 returns
the record with score 100 ≥ 80, the score being the max of the two
similarities boosted by +20 capped at 100 under containment. -/
theorem C2_fuzzy_containment_boost :
    fuzzy_search_books "harry potter" [hpBook] 60 = [(hpBook, 100)]
    ∧ 80 ≤ 100
    ∧ fuzzy_score "harry potter" hpBook
        = min 100 (max (containSim (lowerL "harry potter".data)
              (lowerL (splitextRoot hpBook.filename.data)))
            (tokenSortSim (lowerL "harry potter".data)
              (lowerL (splitextRoot hpBook.filename.data))) + 20)
    ∧ isSubstr (lowerL "harry potter".data)
        (lowerL (splitextRoot hpBook.filename.data)) = true := by
  refine ⟨by rfl, by norm_num, ?_, by decide⟩
  rfl
